import Mathlib

/-!
Verification of `grip/readers.py`: a shallow embedding of the Readme reader
abstraction (DirectoryReader, TextReader, StdinReader) together with the
POSIX path primitives the source calls into (`posixpath.split`,
`posixpath.join`, `posixpath.normpath`, `os.path.dirname`,
`flask.safe_join`), a file-system model, and theorems settling the
frozen claims about the specification.

Modelling conventions:
- the host platform is POSIX (`os.path` is `posixpath`, `os.sep = '/'`,
  no alternative separator), matching the deployment the source assumes;
- Python strings are `List Char` (`Chars`) at the path-manipulation level,
  wrapped into `String` at the reader API level;
- the file system is an explicit association list from (canonical) path
  strings to nodes; every OS call normalizes its query path first, which
  models the kernel resolving `.`/`..`/duplicate-slash segments (the model
  has no symlinks);
- file contents are byte lists; text reads decode UTF-8 strictly, as
  `io.open(..., encoding='utf-8')` does;
- raised exceptions are `Except.error`: `Err.notFound` is the
  `werkzeug.exceptions.NotFound` raised by `flask.safe_join`,
  `Err.ioError e` an `IOError`/`OSError` with that `errno`,
  `Err.decodeError` a `UnicodeDecodeError`.
-/

abbrev Chars := List Char

/-- True when every character of the list is `'/'` (Python `s == '/'*len(s)`). -/
def allSlash (cs : Chars) : Bool := cs.all (fun c => c == '/')

/-- Python `s.rstrip('/')`: remove every trailing `'/'`. -/
def rstripSlash (cs : Chars) : Chars := (cs.reverse.dropWhile (fun c => c == '/')).reverse

/-- The maximal slash-free suffix: the `tail` component of `posixpath.split`. -/
def lastSeg (cs : Chars) : Chars := (cs.reverse.takeWhile (fun c => !(c == '/'))).reverse

/-- Everything up to and including the last `'/'` (empty when there is no slash):
the raw `head` component of `posixpath.split` before its trailing-slash strip. -/
def upToLastSlash (cs : Chars) : Chars := (cs.reverse.dropWhile (fun c => !(c == '/'))).reverse

/-- The `head` component of `posixpath.split`: the part up to the last slash,
with trailing slashes removed unless the head consists only of slashes. -/
def psplitHeadC (cs : Chars) : Chars :=
  let h := upToLastSlash cs
  if allSlash h then h else rstripSlash h

/-- `posixpath.join` restricted to two components, which is the only way the
source calls it: if `b` is absolute it wins; otherwise it is appended,
inserting a separator unless `a` is empty or already ends with one. -/
def pjoinC (a b : Chars) : Chars :=
  if b.head? = some '/' then b
  else if a.isEmpty || (a.getLast? == some '/') then a ++ b
  else a ++ '/' :: b

/-- Number of leading `'/'` characters. -/
def leadSlashes : Chars → Nat
  | [] => 0
  | c :: rest => if c = '/' then leadSlashes rest + 1 else 0

/-- The `initial_slashes` count of `posixpath.normpath`: 0 when the path is
relative, 2 when it starts with exactly two slashes (POSIX preserves `//`),
1 otherwise. -/
def initSlashes (cs : Chars) : Nat :=
  if leadSlashes cs = 0 then 0 else if leadSlashes cs = 2 then 2 else 1

/-- Split at every `'/'` (Python `s.split('/')`); always returns at least one
(possibly empty) group, so prepending a non-slash character extends the
first group (`headI`/`tail` never hit their degenerate case). -/
def splitSlash : Chars → List Chars
  | [] => [[]]
  | c :: rest =>
    if c = '/' then [] :: splitSlash rest
    else (c :: (splitSlash rest).headI) :: (splitSlash rest).tail

/-- Join groups with `'/'` (Python `'/'.join(comps)`). -/
def joinSlash : List Chars → Chars
  | [] => []
  | [c] => c
  | c :: rest => c ++ '/' :: joinSlash rest

/-- The `..` path component. -/
def dotdot : Chars := ['.', '.']

/-- Drop the components `posixpath.normpath` skips: empty ones and `.`. -/
def filterComps (l : List Chars) : List Chars :=
  l.filter (fun c => !(c.isEmpty) && !(c == ['.']))

/-- One step of `posixpath.normpath`'s component loop, on a reversed
accumulator (`stack.head` is Python's `new_comps[-1]`): a non-`..` component
is pushed; `..` pops a previous real component, is kept when it cannot
cancel anything in a relative path, and disappears at the root of an
absolute path. -/
def ddStep (k : Nat) (stack : List Chars) (comp : Chars) : List Chars :=
  if comp = dotdot then
    if stack.isEmpty then (if k = 0 then [comp] else [])
    else if stack.headI = dotdot then comp :: stack else stack.tail
  else comp :: stack

/-- `posixpath.normpath`. -/
def normpathC (cs : Chars) : Chars :=
  if cs.isEmpty then ['.']
  else
    let k := initSlashes cs
    let comps := (filterComps (splitSlash cs)).foldl (ddStep k) []
    let out := List.replicate k '/' ++ joinSlash comps.reverse
    if out.isEmpty then ['.'] else out

/-- `os.path.isabs` on POSIX. -/
def isAbsC (cs : Chars) : Bool := cs.head? == some '/'

/-- Exceptions crossing the reader API. -/
inductive Err where
  | notFound : Err
  | ioError : Nat → Err
  | decodeError : Err
deriving DecidableEq

deriving instance DecidableEq for Except

/-- Embedding of `flask.safe_join` (Flask 1.x `helpers.safe_join`, the
`from flask import safe_join` the source uses), specialized to one pathname
and to POSIX (where `_os_alt_seps` is empty): the pathname is normalized
unless empty, rejected with a NotFound error when absolute, equal to `..`,
or starting with `../`, and otherwise joined onto the directory. -/
def safeJoinC (dir f : Chars) : Except Err Chars :=
  let n := if f.isEmpty then f else normpathC f
  if isAbsC n || n == dotdot || n.take 3 == ['.', '.', '/'] then .error .notFound
  else .ok (pjoinC dir n)

/-! ## File-system model -/

/-- A file-system node: a regular file with contents and mtime, a directory
with mtime, or a node whose `open` fails with the given errno (e.g. `EACCES`)
though `stat` still succeeds. -/
inductive FNode where
  | file : List Nat → Int → FNode
  | dir : Int → FNode
  | denied : Nat → Int → FNode
deriving DecidableEq

/-- A file system: canonical path string to node. -/
abbrev FS := List (String × FNode)

/-- Look a path up in the file system; the OS resolves `.`/`..`/redundant
slashes, modelled by normalizing the query. String equality is compared on
the underlying character lists. -/
def fsGetC (fs : FS) (p : Chars) : Option FNode :=
  fs.findSome? (fun kv => if kv.1.data = normpathC p then some kv.2 else none)

def ENOENT : Nat := 2
def EISDIR : Nat := 21
def EACCES : Nat := 13

/-- `os.path.isdir`. -/
def isdirC (fs : FS) (p : Chars) : Bool :=
  match fsGetC fs p with
  | some (.dir _) => true
  | _ => false

/-- Opening and fully reading a file's raw bytes: `io.open(p).read()`.
Missing nodes give `ENOENT`; opening a directory gives `EISDIR`. -/
def openFileC (fs : FS) (p : Chars) : Except Nat (List Nat) :=
  match fsGetC fs p with
  | some (.file d _) => .ok d
  | some (.dir _) => .error EISDIR
  | some (.denied e _) => .error e
  | none => .error ENOENT

/-- `os.path.getmtime`: the node's mtime, or an `OSError` with `ENOENT`. -/
def getmtimeC (fs : FS) (p : Chars) : Except Err Int :=
  match fsGetC fs p with
  | some (.file _ m) => .ok m
  | some (.dir m) => .ok m
  | some (.denied _ m) => .ok m
  | none => .error (.ioError ENOENT)

/-! ## Strict UTF-8 decoding, as `io.open(..., 'rt', encoding='utf-8')` -/

/-- A UTF-8 continuation byte. -/
def contByte (b : Nat) : Bool := 0x80 ≤ b && b < 0xC0

/-- Strict UTF-8 decoding of a byte list: rejects stray continuation bytes,
overlong encodings, surrogates and values beyond U+10FFFF, like Python's
default `strict` error handler. -/
def utf8Decode : List Nat → Option (List Char)
  | [] => some []
  | b1 :: rest =>
    if b1 < 0x80 then
      (utf8Decode rest).map (fun cs => Char.ofNat b1 :: cs)
    else if b1 < 0xC2 then none
    else if b1 < 0xE0 then
      match rest with
      | b2 :: rest2 =>
        if contByte b2 then
          (utf8Decode rest2).map (fun cs => Char.ofNat ((b1 - 0xC0) * 0x40 + (b2 - 0x80)) :: cs)
        else none
      | [] => none
    else if b1 < 0xF0 then
      match rest with
      | b2 :: b3 :: rest3 =>
        if ((if b1 = 0xE0 then 0xA0 else 0x80) ≤ b2
              && b2 < (if b1 = 0xED then 0xA0 else 0xC0))
            && contByte b3 then
          (utf8Decode rest3).map (fun cs =>
            Char.ofNat ((b1 - 0xE0) * 0x1000 + (b2 - 0x80) * 0x40 + (b3 - 0x80)) :: cs)
        else none
      | _ => none
    else if b1 < 0xF5 then
      match rest with
      | b2 :: b3 :: b4 :: rest4 =>
        if (((if b1 = 0xF0 then 0x90 else 0x80) ≤ b2
              && b2 < (if b1 = 0xF4 then 0x90 else 0xC0))
            && contByte b3) && contByte b4 then
          (utf8Decode rest4).map (fun cs =>
            Char.ofNat ((b1 - 0xF0) * 0x40000 + (b2 - 0x80) * 0x1000
              + (b3 - 0x80) * 0x40 + (b4 - 0x80)) :: cs)
        else none
      | _ => none
    else none

/-! ## DirectoryReader helpers -/

/-- `DirectoryReader.read_text_file`: UTF-8 content of the file, `none` when
it does not exist (`ENOENT` is caught), any other `IOError` re-raised; a
decode failure is a `UnicodeDecodeError`, which the `except IOError` clause
does not catch. -/
def read_text_file (fs : FS) (p : Chars) : Except Err (Option String) :=
  match openFileC fs p with
  | .error e => if e = ENOENT then .ok none else .error (.ioError e)
  | .ok d =>
    match utf8Decode d with
    | some cs => .ok (some (String.mk cs))
    | none => .error .decodeError

/-- `DirectoryReader.read_binary_file`: raw bytes, `none` when the file does
not exist, any other `IOError` re-raised. -/
def read_binary_file (fs : FS) (p : Chars) : Except Err (Option (List Nat)) :=
  match openFileC fs p with
  | .error e => if e = ENOENT then .ok none else .error (.ioError e)
  | .ok d => .ok (some d)

/-! ## MIME guessing (`mimetypes.guess_type`) and binary detection -/

/-- Modelled from Python's standard library `mimetypes` table (the source
delegates to `mimetypes.guess_type`; the spec fixes no table beyond "a
standard extension-to-MIME-type mapping"): the entries relevant here. -/
def mimeTypesMap : List (String × String) :=
  [(".png", "image/png"), (".jpg", "image/jpeg"), (".jpeg", "image/jpeg"),
   (".gif", "image/gif"), (".svg", "image/svg+xml"), (".bmp", "image/bmp"),
   (".md", "text/markdown"), (".markdown", "text/markdown"),
   (".txt", "text/plain"), (".html", "text/html")]

/-- The extension part of `posixpath.splitext`: from the last dot of the last
path component, except that leading dots of the component never start an
extension. -/
def splitextExtC (cs : Chars) : Chars :=
  let rev := (lastSeg cs).reverse
  let after := rev.takeWhile (fun c => !(c == '.'))
  if after.length = rev.length then []
  else if (rev.drop (after.length + 1)).all (fun c => c == '.') then []
  else '.' :: after.reverse

/-- `mimetypes.guess_type`, on the extension table above (case-insensitive
on the extension, as the stdlib is). -/
def guess_type (s : String) : Option String :=
  mimeTypesMap.findSome? (fun kv =>
    if kv.1.data = (splitextExtC s.data).map Char.toLower then some kv.2 else none)

/-- `ReadmeReader.mimetype_for`: absent subpath has no MIME type; otherwise
guess from the subpath's name. -/
def mimetype_for (sp : Option String) : Option String :=
  match sp with
  | none => none
  | some s => guess_type s

/-- `str.startswith`, on the underlying character lists. -/
def startsWithC (a b : String) : Bool := a.data.take b.data.length = b.data

/-- `DirectoryReader.is_binary`: the guessed MIME type exists and starts with
`image/` (the Python expression `mimetype and mimetype.startswith('image/')`
yields a falsy value exactly when this is `false`). -/
def is_binary (sp : Option String) : Bool :=
  match mimetype_for sp with
  | some m => startsWithC m "image/"
  | none => false

/-! ## File resolver (spec-modelled: `grip.constants`, `grip.resolver`) -/

/-- Modelled from the spec: `grip.constants.DEFAULT_FILENAMES` is not under
`src/`; section 6 fixes the candidate list and its priority order. -/
def DEFAULT_FILENAMES : List String :=
  ["README.md", "README.rst", "README.markdown", "README.txt", "README"]

/-- One candidate probe of the file resolver: the candidate joined onto the
directory when it exists there as a regular file. -/
def findCand (fs : FS) (path : Chars) (cand : String) : Option Chars :=
  match fsGetC fs (pjoinC path cand.data) with
  | some (.file _ _) => some (pjoinC path cand.data)
  | _ => none

/-- Modelled from the spec: `grip.resolver.find_file` is not under `src/`;
section 4.2 says it returns the first default-filename candidate that exists
as a regular file within the given directory, or absence when none does. -/
def find_file (fs : FS) (path : Chars) : Option Chars :=
  DEFAULT_FILENAMES.findSome? (findCand fs path)

/-! ## DirectoryReader -/

/-- `DirectoryReader` state after `__init__`: `in_filename` is the
constructor's `path` unchanged (the `TODO: Resolve in_filename` stub), so
`filename = path` and `directory = os.path.dirname(path)`. -/
structure DirectoryReader where
  path : String
  filename : String
  directory : String
deriving DecidableEq

/-- `DirectoryReader.__init__`. -/
def DirectoryReader.ofPath (p : String) : DirectoryReader :=
  { path := p, filename := p, directory := String.mk (psplitHeadC p.data) }

/-- `os.path.join(*posixpath.split(subpath))`: the subpath's segments
re-joined in host convention (identical on POSIX up to slash collapsing
around the last separator). -/
def filenameForC (cs : Chars) : Chars := pjoinC (psplitHeadC cs) (lastSeg cs)

/-- `DirectoryReader.filename_for`. -/
def DirectoryReader.filename_for (r : DirectoryReader) (sp : Option String) : String :=
  match sp with
  | none => r.filename
  | some s => String.mk (filenameForC s.data)

/-- `DirectoryReader.normalize`: `None` stays `None`; otherwise the subpath
is resolved through `safe_join` (whose NotFound propagates), and the subpath
is returned with trailing slashes stripped when the resolved location is not
a directory, with a slash appended when it is a directory and the subpath
lacks one, and unchanged otherwise. -/
def DirectoryReader.normalize (fs : FS) (r : DirectoryReader) (sp : Option String) :
    Except Err (Option String) :=
  match sp with
  | none => .ok none
  | some s =>
    match safeJoinC r.directory.data (filenameForC s.data) with
    | .error e => .error e
    | .ok fn =>
      if !(isdirC fs fn) then .ok (some (String.mk (rstripSlash s.data)))
      else if !(s.data.getLast? == some '/') then .ok (some (s ++ "/"))
      else .ok (some s)

/-- `DirectoryReader.last_updated`: `os.path.getmtime` of the raw subpath
when one is given (the source does not resolve it against the base
directory), of the entry filename otherwise. -/
def DirectoryReader.last_updated (fs : FS) (r : DirectoryReader) (sp : Option String) :
    Except Err Int :=
  match sp with
  | none => getmtimeC fs r.filename.data
  | some s => getmtimeC fs s.data

/-- Content returned by `DirectoryReader.read`: decoded text or raw bytes. -/
inductive Content where
  | text : String → Content
  | binary : List Nat → Content
deriving DecidableEq

/-- `DirectoryReader.read`: absent subpath reads the entry filename as text;
otherwise the subpath is resolved through `safe_join`, a directory is
replaced by its `find_file` default (absence of one yields absence), and the
final file is read as raw bytes when `is_binary(subpath)` holds and as UTF-8
text otherwise. -/
def DirectoryReader.read (fs : FS) (r : DirectoryReader) (sp : Option String) :
    Except Err (Option Content) :=
  match sp with
  | none =>
    match read_text_file fs r.filename.data with
    | .error e => .error e
    | .ok c => .ok (c.map Content.text)
  | some s =>
    match safeJoinC r.directory.data (filenameForC s.data) with
    | .error e => .error e
    | .ok fn0 =>
      match if isdirC fs fn0 then find_file fs fn0 else some fn0 with
      | none => .ok none
      | some fn =>
        if is_binary (some s) then
          match read_binary_file fs fn with
          | .error e => .error e
          | .ok c => .ok (c.map Content.binary)
        else
          match read_text_file fs fn with
          | .error e => .error e
          | .ok c => .ok (c.map Content.text)

/-! ## TextReader and StdinReader -/

/-- `TextReader` state: the stored content (an `Option` because
`StdinReader.__init__` passes `None`) and the optional virtual filename. -/
structure TextReader where
  text : Option String
  filename : Option String
deriving DecidableEq

/-- `TextReader.__init__` as called by users, with a real string. -/
def TextReader.ofText (t : String) (fn : Option String) : TextReader :=
  { text := some t, filename := fn }

/-- `TextReader.read`: the stored content for an absent subpath, absence for
any non-absent subpath. -/
def TextReader.read (r : TextReader) (sp : Option String) : Option String :=
  match sp with
  | some _ => none
  | none => r.text

/-- `StdinReader.__init__`: a `TextReader` with no content yet. -/
def StdinReader.ofFilename (fn : Option String) : TextReader :=
  { text := none, filename := fn }

/-- One `StdinReader.read` call: when the cache is empty and the subpath
absent, stdin is drained (`input`) into the cache; the returned flag records
whether this call consumed stdin. The result is `TextReader.read` on the
updated state. -/
def stdinReadStep (input : String) (r : TextReader) (sp : Option String) :
    Option String × TextReader × Bool :=
  if r.text = none ∧ sp = none then
    ((TextReader.mk (some input) r.filename).read sp, TextReader.mk (some input) r.filename, true)
  else (r.read sp, r, false)

/-- A sequence of `StdinReader.read` calls: the outputs, the final state, and
how many calls consumed stdin. -/
def stdinRun (input : String) (r : TextReader) :
    List (Option String) → List (Option String) × TextReader × Nat
  | [] => ([], r, 0)
  | c :: cs =>
    let step := stdinReadStep input r c
    let rest := stdinRun input step.2.1 cs
    (step.1 :: rest.1, rest.2.1, (if step.2.2 then 1 else 0) + rest.2.2)

/-- A relative path that cannot escape the directory it is joined onto: not
absolute, and no `..` among its slash-separated segments. -/
def cleanRel (rel : Chars) : Prop :=
  rel.head? ≠ some '/' ∧ ∀ c ∈ splitSlash rel, c ≠ dotdot

/-- The file-system locations reachable from the base directory without
upward traversal: everything of the form `posixpath.join(dir, rel)` for a
clean relative path (`rel = ""` and `rel = "."` give the base directory
itself). -/
def underDir (dir : String) (p : Chars) : Prop :=
  ∃ rel, cleanRel rel ∧ p = pjoinC dir.data rel

/-- The end-to-end scenario of the spec's testable properties: a base
directory `proj` holding `README.md` with text "Hello" and a subdirectory
`images` holding `README.png`. -/
def fsProj : FS :=
  [("proj", .dir 0),
   ("proj/README.md", .file [72, 101, 108, 108, 111] 10),
   ("proj/images", .dir 0),
   ("proj/images/README.png", .file [137, 80, 78, 71, 13, 10, 26, 10] 11)]

/-- The reader whose entry file is `proj/README.md`. -/
def rdrProj : DirectoryReader := .ofPath "proj/README.md"

/-- A base directory whose entry file is an image by extension: `proj2`
holding only `README.png` with ASCII text "Hi". -/
def fsPng : FS := [("proj2", .dir 0), ("proj2/README.png", .file [72, 105] 12)]

/-- The reader whose entry file is `proj2/README.png`. -/
def rdrPng : DirectoryReader := .ofPath "proj2/README.png"

/-- A directory holding a file whose `open` fails with `EACCES`. -/
def fsPerm : FS := [("a", .dir 0), ("a/secret.md", .denied 13 7)]

/-- A base directory `docs` for the `last_updated` scenario: the entry file
`docs/README.md` has mtime 100, and no `README.md` exists relative to the
process working directory. -/
def fsDocs : FS := [("docs", .dir 50), ("docs/README.md", .file [72] 100)]

/-- The reader whose entry file is `docs/README.md`. -/
def rdrDocs : DirectoryReader := .ofPath "docs/README.md"

/-! ## Claim theorems: the directly computable ones -/

/-- C2, counterexample: with the end-to-end file system of the spec's own
scenario, (a) a reader constructed with the base directory itself cannot
read the document at all (`__init__` does not resolve the entry file, so
`read(None)` opens the directory and raises `EISDIR`), and (b) with the
reader whose entry file is `proj/README.md`, `read("images/")` returns the
absence marker, not the raw bytes of `images/README.png` with
`isBinary` true: the default-file search only considers README text
candidates. -/
theorem C2_counterexample :
    DirectoryReader.read fsProj (DirectoryReader.ofPath "proj") none
      = .error (.ioError EISDIR) ∧
    DirectoryReader.read fsProj rdrProj (some "images/") = .ok none ∧
    (Except.ok none : Except Err (Option Content))
      ≠ .ok (some (.binary [137, 80, 78, 71, 13, 10, 26, 10])) := by
  refine ⟨by decide, by decide, by decide⟩

/-- C2, amended: for the reader constructed with the README file's path
`proj/README.md` (construction does not resolve a directory to its entry
file), `read(None)` returns "Hello", `read("missing.md")` returns absence,
and `read("images/")`, where `images/` contains only `README.png`, also
returns absence, because the default-filename search considers only the
README text candidates. -/
theorem C2_amended :
    DirectoryReader.read fsProj rdrProj none = .ok (some (.text "Hello")) ∧
    DirectoryReader.read fsProj rdrProj (some "missing.md") = .ok none ∧
    DirectoryReader.read fsProj rdrProj (some "images/") = .ok none := by
  refine ⟨by decide, by decide, by decide⟩

/-- C3: `last_updated` passes a non-absent subpath to `os.path.getmtime`
unresolved (relative to the process working directory), not resolved within
the base directory as the claim states: for the reader rooted at `docs`
with entry file `docs/README.md` of mtime 100, `last_updated("README.md")`
raises `ENOENT` although the path resolved within the base directory exists
with mtime 100; the absent-subpath case does use the entry filename. -/
theorem C3_code_behavior :
    DirectoryReader.last_updated fsDocs rdrDocs (some "README.md")
      = .error (.ioError ENOENT) ∧
    getmtimeC fsDocs (pjoinC "docs".data "README.md".data) = .ok 100 ∧
    DirectoryReader.last_updated fsDocs rdrDocs none = .ok 100 := by
  refine ⟨by decide, by decide, by decide⟩

/-- C4: in both file-reading helpers a missing file (`ENOENT`) yields the
absence marker and is never raised, while every other I/O failure is
re-raised to the caller. -/
theorem C4_enoent_absence_others_raise (fs : FS) (p : Chars) :
    (openFileC fs p = .error ENOENT →
      read_text_file fs p = .ok none ∧ read_binary_file fs p = .ok none) ∧
    (∀ e, openFileC fs p = .error e → e ≠ ENOENT →
      read_text_file fs p = .error (.ioError e)
        ∧ read_binary_file fs p = .error (.ioError e)) := by
  constructor
  · intro h
    constructor <;> simp [read_text_file, read_binary_file, h]
  · intro e h hne
    constructor <;> simp [read_text_file, read_binary_file, h, hne]

/-- C4, witness: a missing file reads as absence; a permission-denied file
(errno `EACCES = 13`) raises. -/
theorem C4_enoent_absence_others_raise_witness :
    read_text_file fsPerm "a/missing.md".data = .ok none ∧
    read_text_file fsPerm "a/secret.md".data = .error (.ioError 13) :=
  ⟨((C4_enoent_absence_others_raise fsPerm "a/missing.md".data).1 (by decide)).1,
   ((C4_enoent_absence_others_raise fsPerm "a/secret.md".data).2 13 (by decide) (by decide)).1⟩

/-- C7: `is_binary` holds exactly when the guessed MIME type exists and
starts with `image/`; in particular it is true for `logo.png`, false for
`notes.md` and false for an unrecognized extension. -/
theorem C7_is_binary_iff_image :
    (∀ sp : Option String, is_binary sp = true ↔
      ∃ m, mimetype_for sp = some m ∧ startsWithC m "image/" = true) ∧
    is_binary (some "logo.png") = true ∧
    is_binary (some "notes.md") = false ∧
    is_binary (some "file.xyzzy") = false := by
  refine ⟨fun sp => ?_, by decide, by decide, by decide⟩
  cases h : mimetype_for sp with
  | none => simp [is_binary, h]
  | some m => simp [is_binary, h]

/-- C8: a text reader returns exactly the constructed content for an absent
subpath and absence for every non-absent subpath. -/
theorem C8_text_reader_content (t : String) (fn : Option String) :
    (TextReader.ofText t fn).read none = some t ∧
    ∀ s : String, (TextReader.ofText t fn).read (some s) = none :=
  ⟨rfl, fun _ => rfl⟩

/-- Helper for C9: once the stdin cache is filled with `t`, every further
call consumes nothing, absent subpaths return the identical cached `t`, and
non-absent subpaths return absence. -/
theorem stdinRun_filled (input t : String) (fn : Option String)
    (calls : List (Option String)) :
    stdinRun input (TextReader.mk (some t) fn) calls
      = (calls.map (fun c => if c.isSome then none else some t),
         TextReader.mk (some t) fn, 0) := by
  induction calls with
  | nil => rfl
  | cons c cs ih =>
    cases c <;> simp [stdinRun, stdinReadStep, TextReader.read, ih]

/-- Helper for C9: a call with a non-absent subpath returns absence, changes
nothing and consumes nothing, whatever the state. -/
theorem stdinReadStep_some (input : String) (r : TextReader) (s : String) :
    stdinReadStep input r (some s) = (none, r, false) := by
  simp [stdinReadStep, TextReader.read]

/-- C9: over any sequence of `read` calls on a fresh stdin reader, stdin is
consumed at most once (exactly once when some call has an absent subpath,
never otherwise); every absent-subpath call returns the identical drained
content, and every non-absent-subpath call returns absence without
triggering consumption. -/
theorem C9_stdin_consumed_at_most_once (input : String) (fn : Option String)
    (calls : List (Option String)) :
    stdinRun input (StdinReader.ofFilename fn) calls
      = (calls.map (fun c => if c.isSome then none else some input),
         TextReader.mk (if calls.all (fun c => c.isSome) then none else some input) fn,
         if calls.all (fun c => c.isSome) then 0 else 1) := by
  induction calls with
  | nil => rfl
  | cons c cs ih =>
    cases c with
    | none =>
      have hstep : stdinReadStep input (StdinReader.ofFilename fn) none
          = (some input, TextReader.mk (some input) fn, true) := rfl
      simp only [stdinRun, hstep, stdinRun_filled]
      simp
    | some s =>
      simp only [stdinRun, stdinReadStep_some, ih]
      simp

/-- C10: `read` with an absent subpath never returns raw bytes, and whenever
the entry filename holds a file whose bytes decode as UTF-8, it returns that
decoded text — regardless of the entry filename's extension (`is_binary` is
never consulted on the absent-subpath branch). -/
theorem C10_read_none_reads_text (fs : FS) (r : DirectoryReader) :
    (∀ b : List Nat, DirectoryReader.read fs r none ≠ .ok (some (.binary b))) ∧
    (∀ d (m : Int) cs, fsGetC fs r.filename.data = some (.file d m) →
      utf8Decode d = some cs →
      DirectoryReader.read fs r none = .ok (some (.text (String.mk cs)))) := by
  constructor
  · intro b h
    rw [DirectoryReader.read] at h
    cases hr : read_text_file fs r.filename.data with
    | error e => rw [hr] at h; exact Except.noConfusion h
    | ok c =>
      rw [hr] at h
      cases c with
      | none => simp at h
      | some s => simp at h
  · intro d m cs hget hdec
    simp [DirectoryReader.read, read_text_file, openFileC, hget, hdec]

/-- C10, witness: the entry file `proj2/README.png` (an image extension) is
still read as decoded UTF-8 text. -/
theorem C10_read_none_reads_text_witness :
    DirectoryReader.read fsPng rdrPng none = .ok (some (.text (String.mk "Hi".data))) :=
  (C10_read_none_reads_text fsPng rdrPng).2 [72, 105] 12 "Hi".data (by decide) (by decide)

/-! ## Lemmas about the POSIX path primitives -/

/-- The head of what `dropWhile` leaves fails the predicate. -/
theorem head_dropWhile_false (p : Char → Bool) (l : Chars) (a : Char)
    (h : (l.dropWhile p).head? = some a) : p a = false := by
  induction l with
  | nil => simp [List.dropWhile] at h
  | cons c cs ih =>
    by_cases hc : p c
    · rw [List.dropWhile_cons, if_pos hc] at h
      exact ih h
    · rw [List.dropWhile_cons, if_neg hc] at h
      simp at h
      subst h
      simpa using hc

/-- A slash-right-stripped string never ends with a slash. -/
theorem rstripSlash_getLast (cs : Chars) : (rstripSlash cs).getLast? ≠ some '/' := by
  intro h
  rw [rstripSlash, List.getLast?_reverse] at h
  have := head_dropWhile_false _ _ _ h
  simp at this

theorem splitSlash_ne_nil (cs : Chars) : splitSlash cs ≠ [] := by
  cases cs with
  | nil => simp [splitSlash]
  | cons c rest =>
    by_cases hc : c = '/' <;> simp [splitSlash, hc]

theorem splitSlash_cons_slash (rest : Chars) :
    splitSlash ('/' :: rest) = [] :: splitSlash rest := by
  simp [splitSlash]

theorem splitSlash_cons_of_ne (c : Char) (rest : Chars) (hc : c ≠ '/') :
    splitSlash (c :: rest) = (c :: (splitSlash rest).headI) :: (splitSlash rest).tail := by
  simp [splitSlash, hc]

/-- Splitting distributes over a separator: the groups of `a ++ '/' :: b` are
the groups of `a` followed by the groups of `b`. -/
theorem splitSlash_append_slash (a b : Chars) :
    splitSlash (a ++ '/' :: b) = splitSlash a ++ splitSlash b := by
  induction a with
  | nil => simp [splitSlash_cons_slash, splitSlash]
  | cons c a ih =>
    by_cases hc : c = '/'
    · subst hc
      rw [List.cons_append, splitSlash_cons_slash, splitSlash_cons_slash, ih, List.cons_append]
    · rw [List.cons_append, splitSlash_cons_of_ne c _ hc, splitSlash_cons_of_ne c _ hc, ih]
      obtain ⟨g, gs, hg⟩ := List.exists_cons_of_ne_nil (splitSlash_ne_nil a)
      rw [hg]
      simp

/-- No group produced by splitting contains a slash. -/
theorem splitSlash_no_slash (cs : Chars) : ∀ g ∈ splitSlash cs, '/' ∉ g := by
  induction cs with
  | nil => simp [splitSlash]
  | cons c rest ih =>
    by_cases hc : c = '/'
    · subst hc
      rw [splitSlash_cons_slash]
      intro g hg
      rcases List.mem_cons.1 hg with h | h
      · subst h; simp
      · exact ih g h
    · rw [splitSlash_cons_of_ne c _ hc]
      intro g hg
      obtain ⟨g0, gs0, hg0⟩ := List.exists_cons_of_ne_nil (splitSlash_ne_nil rest)
      rw [hg0] at hg
      simp only [List.headI, List.tail] at hg
      rcases List.mem_cons.1 hg with h | h
      · subst h
        intro hmem
        rcases List.mem_cons.1 hmem with h' | h'
        · exact hc h'.symm
        · exact ih g0 (by rw [hg0]; exact List.mem_cons_self _ _) h'
      · exact ih g (by rw [hg0]; exact List.mem_cons_of_mem _ h)

/-- A slash-free string splits into itself alone. -/
theorem splitSlash_of_no_slash (cs : Chars) (h : '/' ∉ cs) : splitSlash cs = [cs] := by
  induction cs with
  | nil => simp [splitSlash]
  | cons c rest ih =>
    have hc : c ≠ '/' := fun hc => h (hc ▸ List.mem_cons_self _ _)
    rw [splitSlash_cons_of_ne c _ hc, ih (fun hm => h (List.mem_cons_of_mem _ hm))]
    simp

theorem joinSlash_cons (c : Chars) (g : Chars) (gs : List Chars) :
    joinSlash (c :: g :: gs) = c ++ '/' :: joinSlash (g :: gs) := by
  rfl

/-- Joining then splitting gives back the groups, provided they are
slash-free. -/
theorem splitSlash_joinSlash (comps : List Chars) (hne : comps ≠ [])
    (h : ∀ g ∈ comps, '/' ∉ g) : splitSlash (joinSlash comps) = comps := by
  induction comps with
  | nil => exact absurd rfl hne
  | cons g gs ih =>
    cases gs with
    | nil =>
      show splitSlash (joinSlash [g]) = [g]
      exact splitSlash_of_no_slash g (h g (List.mem_cons_self _ _))
    | cons g2 gs2 =>
      rw [joinSlash_cons, splitSlash_append_slash,
        splitSlash_of_no_slash g (h g (List.mem_cons_self _ _)),
        ih (by simp) (fun x hx => h x (List.mem_cons_of_mem _ hx))]
      rfl

/-- Appending anything to a string that is not made only of slashes does not
change its leading-slash count. -/
theorem leadSlashes_append (r u : Chars) (h : allSlash r = false) :
    leadSlashes (r ++ u) = leadSlashes r := by
  induction r with
  | nil => simp [allSlash] at h
  | cons c r ih =>
    by_cases hc : c = '/'
    · subst hc
      have hr : allSlash r = false := by simpa [allSlash] using h
      simp [leadSlashes, ih hr]
    · simp [leadSlashes, hc]

theorem initSlashes_congr (a b : Chars) (h : leadSlashes a = leadSlashes b) :
    initSlashes a = initSlashes b := by
  unfold initSlashes
  rw [h]

theorem filterComps_append (l1 l2 : List Chars) :
    filterComps (l1 ++ l2) = filterComps l1 ++ filterComps l2 :=
  List.filter_append _ _

/-- Unfolding of `normpath` on a nonempty path. -/
theorem normpathC_eq (cs : Chars) (h : cs ≠ []) :
    normpathC cs =
      (if (List.replicate (initSlashes cs) '/' ++
            joinSlash (((filterComps (splitSlash cs)).foldl (ddStep (initSlashes cs)) []).reverse)).isEmpty
        then ['.']
        else List.replicate (initSlashes cs) '/' ++
          joinSlash (((filterComps (splitSlash cs)).foldl (ddStep (initSlashes cs)) []).reverse)) := by
  unfold normpathC
  rw [if_neg (by simpa using h)]

/-- `normpath` only looks at the leading-slash count and at the non-trivial
components of the split. -/
theorem normpathC_congr (a b : Chars) (ha : a ≠ []) (hb : b ≠ [])
    (h1 : leadSlashes a = leadSlashes b)
    (h2 : filterComps (splitSlash a) = filterComps (splitSlash b)) :
    normpathC a = normpathC b := by
  rw [normpathC_eq a ha, normpathC_eq b hb, initSlashes_congr a b h1, h2]

theorem dropWhile_idem (p : Char → Bool) (l : Chars) :
    (l.dropWhile p).dropWhile p = l.dropWhile p := by
  induction l with
  | nil => rfl
  | cons c cs ih =>
    by_cases hc : p c
    · rw [List.dropWhile_cons, if_pos hc]
      exact ih
    · rw [List.dropWhile_cons, if_neg hc, List.dropWhile_cons, if_neg hc]

theorem rstripSlash_idem (cs : Chars) : rstripSlash (rstripSlash cs) = rstripSlash cs := by
  unfold rstripSlash
  rw [List.reverse_reverse, dropWhile_idem]

/-- Every string is its slash-stripped form followed by some run of
slashes. -/
theorem rstrip_decomp (cs : Chars) : ∃ k, cs = rstripSlash cs ++ List.replicate k '/' := by
  refine ⟨(cs.reverse.takeWhile (fun c => c == '/')).length, ?_⟩
  conv_lhs => rw [← List.reverse_reverse cs,
    ← List.takeWhile_append_dropWhile (fun c => c == '/') cs.reverse]
  rw [List.reverse_append]
  congr 1
  have hmem : ∀ x ∈ cs.reverse.takeWhile (fun c => c == '/'), x = '/' := by
    intro x hx
    have := List.mem_takeWhile_imp hx
    simpa using this
  rw [List.eq_replicate_of_mem hmem]
  simp

theorem allSlash_replicate (k : Nat) : allSlash (List.replicate k '/') = true := by
  simp [allSlash, List.all_eq_true, List.mem_replicate]

theorem allSlash_rstrip (cs : Chars) (h : allSlash cs = false) :
    allSlash (rstripSlash cs) = false := by
  obtain ⟨k, hk⟩ := rstrip_decomp cs
  rw [hk, allSlash, List.all_append] at h
  have hrep := allSlash_replicate k
  rw [allSlash] at hrep
  rw [hrep, Bool.and_true] at h
  exact h

theorem allSlash_false_ne_nil (cs : Chars) (h : allSlash cs = false) : cs ≠ [] := by
  intro hc
  rw [hc] at h
  simp [allSlash] at h

theorem filterComps_split_append_slashes (r : Chars) (k : Nat) :
    filterComps (splitSlash (r ++ List.replicate k '/')) = filterComps (splitSlash r) := by
  induction k with
  | zero => simp
  | succ k ih =>
    rw [List.replicate_succ' k '/', ← List.append_assoc]
    have h1 : ('/' : Char) :: ([] : Chars) = ['/'] := rfl
    rw [← h1, splitSlash_append_slash, filterComps_append, ih]
    simp [splitSlash, filterComps]

/-- Trailing slashes do not change `normpath`, for paths that are not made
only of slashes. -/
theorem np_append_slashes (cs : Chars) (k : Nat) (h : allSlash cs = false) :
    normpathC (cs ++ List.replicate k '/') = normpathC cs := by
  have hcs : cs ≠ [] := allSlash_false_ne_nil cs h
  exact normpathC_congr _ _ (by simp [hcs]) hcs
    (leadSlashes_append _ _ h) (filterComps_split_append_slashes _ _)

theorem np_rstrip (cs : Chars) (h : allSlash cs = false) :
    normpathC (rstripSlash cs) = normpathC cs := by
  obtain ⟨k, hk⟩ := rstrip_decomp cs
  conv_rhs => rw [hk]
  exact (np_append_slashes _ k (allSlash_rstrip cs h)).symm

theorem np_append_slash (cs : Chars) (h : allSlash cs = false) :
    normpathC (cs ++ ['/']) = normpathC cs := by
  have h1 := np_append_slashes cs 1 h
  simpa using h1

/-- The split head and tail reassemble the original string. -/
theorem upToLast_append_lastSeg (cs : Chars) : upToLastSlash cs ++ lastSeg cs = cs := by
  unfold upToLastSlash lastSeg
  rw [← List.reverse_append, List.takeWhile_append_dropWhile (fun c => !(c == '/')) cs.reverse,
    List.reverse_reverse]

theorem lastSeg_no_slash (cs : Chars) : '/' ∉ lastSeg cs := by
  unfold lastSeg
  intro h
  rw [List.mem_reverse] at h
  have := List.mem_takeWhile_imp h
  simp at this

theorem lastSeg_head_ne (cs : Chars) : (lastSeg cs).head? ≠ some '/' := by
  intro h
  apply lastSeg_no_slash cs
  exact List.mem_of_mem_head? (by simp [h])

/-- A nonempty split head ends with the separating slash. -/
theorem upToLast_getLast (cs : Chars) (h : upToLastSlash cs ≠ []) :
    (upToLastSlash cs).getLast? = some '/' := by
  unfold upToLastSlash at h ⊢
  rw [List.getLast?_reverse]
  cases hh : (cs.reverse.dropWhile (fun c => !(c == '/'))).head? with
  | none =>
    rw [List.head?_eq_none_iff] at hh
    rw [hh] at h
    simp at h
  | some a =>
    have hp := head_dropWhile_false _ _ _ hh
    simp at hp
    rw [hp]

theorem psplitHead_eq_nil (cs : Chars) (h : psplitHeadC cs = []) : upToLastSlash cs = [] := by
  unfold psplitHeadC at h
  by_cases ha : allSlash (upToLastSlash cs)
  · rw [if_pos ha] at h
    exact h
  · rw [if_neg ha] at h
    have hfalse : allSlash (upToLastSlash cs) = false := by simpa using ha
    have := allSlash_rstrip _ hfalse
    rw [h] at this
    simp [allSlash] at this

theorem ff_ne_nil (cs : Chars) (h : cs ≠ []) : filenameForC cs ≠ [] := by
  unfold filenameForC pjoinC
  intro hff
  by_cases hb : (lastSeg cs).head? = some '/'
  · rw [if_pos hb] at hff
    rw [hff] at hb
    cases hb
  · rw [if_neg hb] at hff
    by_cases ha : ((psplitHeadC cs).isEmpty || ((psplitHeadC cs).getLast? == some '/')) = true
    · rw [if_pos ha] at hff
      obtain ⟨h1, h2⟩ := List.append_eq_nil.mp hff
      have hup := psplitHead_eq_nil cs h1
      apply h
      rw [← upToLast_append_lastSeg cs, hup, h2]
      rfl
    · rw [if_neg ha] at hff
      simp at hff

theorem splitSlash_replicate_append (m : Nat) (x : Chars) :
    splitSlash (List.replicate m '/' ++ x) = List.replicate m [] ++ splitSlash x := by
  induction m with
  | zero => rfl
  | succ m ih =>
    rw [List.replicate_succ, List.cons_append, splitSlash_cons_slash, ih, List.replicate_succ,
      List.cons_append]

theorem filterComps_replicate_nil (m : Nat) :
    filterComps (List.replicate m ([] : Chars)) = [] := by
  simp [filterComps]

/-- `os.path.join(*posixpath.split(s))` has the same normal form as `s`:
re-joining the split only collapses slash runs around the last separator. -/
theorem np_ff (cs : Chars) : normpathC (filenameForC cs) = normpathC cs := by
  have hdecomp := upToLast_append_lastSeg cs
  by_cases hup : upToLastSlash cs = []
  · have hcs : lastSeg cs = cs := by
      conv_rhs => rw [← hdecomp, hup]
      rfl
    have hph : psplitHeadC cs = [] := by
      unfold psplitHeadC
      rw [hup]
      simp [allSlash, rstripSlash]
    unfold filenameForC pjoinC
    rw [hph, hcs]
    have hhead : cs.head? ≠ some '/' := by
      have h2 := lastSeg_head_ne cs
      rwa [hcs] at h2
    rw [if_neg hhead, if_pos (by simp)]
    rfl
  · by_cases hall : allSlash (upToLastSlash cs)
    · have hph : psplitHeadC cs = upToLastSlash cs := by
        unfold psplitHeadC
        rw [if_pos hall]
      unfold filenameForC pjoinC
      rw [hph, if_neg (lastSeg_head_ne cs),
        if_pos (by rw [upToLast_getLast cs hup]; simp), hdecomp]
    · have hfalse : allSlash (upToLastSlash cs) = false := by simpa using hall
      have hph : psplitHeadC cs = rstripSlash (upToLastSlash cs) := by
        unfold psplitHeadC
        rw [if_neg hall]
      have hallr : allSlash (rstripSlash (upToLastSlash cs)) = false :=
        allSlash_rstrip _ hfalse
      have hrne : rstripSlash (upToLastSlash cs) ≠ [] := allSlash_false_ne_nil _ hallr
      obtain ⟨k, hk⟩ := rstrip_decomp (upToLastSlash cs)
      have hk0 : k ≠ 0 := by
        intro h0
        rw [h0] at hk
        simp at hk
        have h1 := upToLast_getLast cs hup
        rw [hk] at h1
        exact rstripSlash_getLast _ h1
      obtain ⟨k1, rfl⟩ := Nat.exists_eq_succ_of_ne_zero hk0
      unfold filenameForC pjoinC
      rw [hph, if_neg (lastSeg_head_ne cs),
        if_neg (by simp [hrne, rstripSlash_getLast])]
      have hcs2 : cs = rstripSlash (upToLastSlash cs)
          ++ ('/' :: (List.replicate k1 '/' ++ lastSeg cs)) := by
        conv_lhs => rw [← hdecomp, hk, List.replicate_succ, List.append_assoc, List.cons_append]
      conv_rhs => rw [hcs2]
      apply normpathC_congr
      · simp
      · simp
      · rw [leadSlashes_append _ _ hallr, leadSlashes_append _ _ hallr]
      · rw [splitSlash_append_slash, splitSlash_append_slash, filterComps_append,
          filterComps_append, splitSlash_replicate_append, filterComps_append,
          filterComps_replicate_nil]
        simp
/-- `safe_join` on a nonempty pathname, with the normalization forced. -/
theorem safeJoinC_of_ne_nil (d f : Chars) (hf : f ≠ []) :
    safeJoinC d f =
      (if isAbsC (normpathC f) || (normpathC f == dotdot)
          || ((normpathC f).take 3 == ['.', '.', '/'])
        then .error .notFound else .ok (pjoinC d (normpathC f))) := by
  have hn : (if f.isEmpty then f else normpathC f) = normpathC f := if_neg (by simpa using hf)
  unfold safeJoinC
  rw [hn]

/-- `safe_join` only depends on the normal form of a nonempty pathname. -/
theorem safeJoin_congr (d f g : Chars) (hf : f ≠ []) (hg : g ≠ [])
    (h : normpathC f = normpathC g) : safeJoinC d f = safeJoinC d g := by
  rw [safeJoinC_of_ne_nil d f hf, safeJoinC_of_ne_nil d g hg, h]

theorem leadSlashes_replicate (n : Nat) : leadSlashes (List.replicate n '/') = n := by
  induction n with
  | zero => rfl
  | succ n ih =>
    rw [List.replicate_succ]
    simp [leadSlashes, ih]

/-- The normal form of a nonempty all-slash path is absolute. -/
theorem np_allSlash_isAbs (cs : Chars) (hne : cs ≠ []) (hall : allSlash cs = true) :
    isAbsC (normpathC cs) = true := by
  have hcs : cs = List.replicate cs.length '/' := List.eq_replicate_of_mem (fun b hb => by
    rw [allSlash, List.all_eq_true] at hall
    simpa using hall b hb)
  rw [normpathC_eq cs hne]
  have hsplit : filterComps (splitSlash cs) = [] := by
    conv_lhs => rw [hcs, ← List.append_nil (List.replicate cs.length '/')]
    rw [splitSlash_replicate_append, filterComps_append, filterComps_replicate_nil]
    simp [splitSlash, filterComps]
  rw [hsplit]
  have hlen : leadSlashes cs = cs.length := by
    conv_lhs => rw [hcs]
    rw [leadSlashes_replicate]
  have hk0 : initSlashes cs ≠ 0 := by
    unfold initSlashes
    rw [hlen]
    have : cs.length ≠ 0 := by simpa using hne
    split
    · omega
    · split <;> omega
  obtain ⟨k1, hk1⟩ := Nat.exists_eq_succ_of_ne_zero hk0
  rw [hk1, List.replicate_succ]
  simp [isAbsC]

/-- `safe_join` rejects every nonempty all-slash subpath (its normal form is
absolute). -/
theorem safeJoin_allSlash_error (d cs : Chars) (hne : cs ≠ []) (hall : allSlash cs = true) :
    safeJoinC d (filenameForC cs) = .error .notFound := by
  rw [safeJoinC_of_ne_nil d _ (ff_ne_nil cs hne)]
  rw [if_pos (by rw [np_ff, np_allSlash_isAbs cs hne hall]; rfl)]

/-- C5, amended: when the resolved location is not a directory, `normalize`
returns the subpath with every trailing slash stripped (so the result has no
trailing slash); when it is a directory, the result has at least one
trailing slash (one is appended only when the subpath lacks one — a subpath
already ending in slashes is returned unchanged, so multiple trailing
slashes are preserved). -/
theorem C5_amended (fs : FS) (r : DirectoryReader) (s v : String) (q : Chars)
    (hsj : safeJoinC r.directory.data (filenameForC s.data) = .ok q)
    (hn : DirectoryReader.normalize fs r (some s) = .ok (some v)) :
    (isdirC fs q = false → v.data = rstripSlash s.data ∧ v.data.getLast? ≠ some '/') ∧
    (isdirC fs q = true → v.data.getLast? = some '/') := by
  simp only [DirectoryReader.normalize, hsj] at hn
  by_cases hd : isdirC fs q
  · simp only [hd, Bool.not_true, Bool.false_eq_true, if_false] at hn
    refine ⟨fun hcontra => absurd hd (by simp [hcontra]), fun _ => ?_⟩
    by_cases he : s.data.getLast? = some '/'
    · rw [if_neg (by simp [he])] at hn
      cases hn
      exact he
    · rw [if_pos (by simpa using he)] at hn
      cases hn
      show (s ++ "/").data.getLast? = some '/'
      rw [String.data_append]
      simp
  · rw [Bool.not_eq_true] at hd
    simp only [hd, Bool.not_false, if_true] at hn
    cases hn
    exact ⟨fun _ => ⟨rfl, rstripSlash_getLast _⟩, fun hcontra => by rw [hd] at hcontra; cases hcontra⟩

/-- C5, counterexample: `images//` resolves to the directory `proj/images`,
and `normalize` returns it unchanged with two trailing slashes — not exactly
one (it is not the stripped subpath with a single slash appended). -/
theorem C5_counterexample :
    DirectoryReader.normalize fsProj rdrProj (some "images//") = .ok (some "images//") ∧
    isdirC fsProj (pjoinC "proj".data "images".data) = true ∧
    ("images//" : String) ≠ String.mk (rstripSlash ("images//" : String).data) ++ "/" := by
  refine ⟨by decide, by decide, by decide⟩

/-- C5, witness: a non-directory subpath gets its trailing slashes stripped;
a directory subpath ends with a slash. -/
theorem C5_amended_witness :
    (("missing.md" : String).data = rstripSlash ("missing.md//" : String).data ∧
      ("missing.md" : String).data.getLast? ≠ some '/') ∧
    ("images/" : String).data.getLast? = some '/' :=
  ⟨(C5_amended fsProj rdrProj "missing.md//" "missing.md" ("proj/missing.md").data
      (by decide) (by decide)).1 (by decide),
   (C5_amended fsProj rdrProj "images" "images/" ("proj/images").data
      (by decide) (by decide)).2 (by decide)⟩

/-! ## C6: idempotence of `normalize` -/

/-- C6, amended: for every nonempty subpath, normalizing twice equals
normalizing once (with a raised `NotFound` propagating through the
composition). The empty subpath is the one exception — see the
counterexample. -/
theorem C6_amended (fs : FS) (r : DirectoryReader) (s : String) (hs : s ≠ "") :
    (DirectoryReader.normalize fs r (some s)).bind (DirectoryReader.normalize fs r)
      = DirectoryReader.normalize fs r (some s) := by
  have hsd : s.data ≠ [] := fun hd => hs (String.ext (by simpa using hd))
  by_cases hall : allSlash s.data
  · have herr := safeJoin_allSlash_error r.directory.data s.data hsd hall
    simp [DirectoryReader.normalize, herr, Except.bind]
  · have hfalse : allSlash s.data = false := by simpa using hall
    cases hsj : safeJoinC r.directory.data (filenameForC s.data) with
    | error e => simp [DirectoryReader.normalize, hsj, Except.bind]
    | ok q =>
      by_cases hd : isdirC fs q
      · by_cases he : s.data.getLast? = some '/'
        · have h1 : DirectoryReader.normalize fs r (some s) = .ok (some s) := by
            simp [DirectoryReader.normalize, hsj, hd, he]
          rw [h1]
          exact h1
        · have h1 : DirectoryReader.normalize fs r (some s) = .ok (some (s ++ "/")) := by
            simp [DirectoryReader.normalize, hsj, hd, he]
          rw [h1]
          show DirectoryReader.normalize fs r (some (s ++ "/")) = .ok (some (s ++ "/"))
          have hdata : (s ++ "/").data = s.data ++ ['/'] := by
            rw [String.data_append]
          have hsj2 : safeJoinC r.directory.data (filenameForC (s ++ "/").data) = .ok q := by
            rw [← hsj]
            apply safeJoin_congr
            · exact ff_ne_nil _ (by rw [hdata]; simp)
            · exact ff_ne_nil _ hsd
            · rw [np_ff, np_ff, hdata, np_append_slash _ hfalse]
          rw [hdata] at hsj2
          simp [DirectoryReader.normalize, hsj2, hd, hdata]
      · have hdf : isdirC fs q = false := by simpa using hd
        have h1 : DirectoryReader.normalize fs r (some s)
            = .ok (some (String.mk (rstripSlash s.data))) := by
          simp [DirectoryReader.normalize, hsj, hdf]
        rw [h1]
        show DirectoryReader.normalize fs r (some (String.mk (rstripSlash s.data)))
          = .ok (some (String.mk (rstripSlash s.data)))
        have hrne : rstripSlash s.data ≠ [] :=
          allSlash_false_ne_nil _ (allSlash_rstrip _ hfalse)
        have hsj2 : safeJoinC r.directory.data
            (filenameForC (String.mk (rstripSlash s.data)).data) = .ok q := by
          rw [← hsj]
          apply safeJoin_congr
          · exact ff_ne_nil _ hrne
          · exact ff_ne_nil _ hsd
          · rw [np_ff, np_ff]
            exact np_rstrip _ hfalse
        simp [DirectoryReader.normalize, hsj2, hdf, rstripSlash_idem]

/-- C6, counterexample: with the base directory present, normalizing the
empty subpath yields `"/"`, but normalizing `"/"` raises `NotFound` (its
normal form is absolute), so `normalize (normalize "")` differs from
`normalize ""`. -/
theorem C6_counterexample :
    DirectoryReader.normalize fsProj rdrProj (some "") = .ok (some "/") ∧
    (DirectoryReader.normalize fsProj rdrProj (some "")).bind
        (DirectoryReader.normalize fsProj rdrProj)
      = .error .notFound ∧
    (Except.error Err.notFound : Except Err (Option String)) ≠ .ok (some "/") := by
  refine ⟨by decide, by decide, by decide⟩

/-- C6, witness: idempotence at the concrete subpath `notes.md`. -/
theorem C6_amended_witness :
    (DirectoryReader.normalize fsProj rdrProj (some "notes.md")).bind
        (DirectoryReader.normalize fsProj rdrProj)
      = DirectoryReader.normalize fsProj rdrProj (some "notes.md") :=
  C6_amended fsProj rdrProj "notes.md" (by decide)

/-! ## C1: traversal containment of `read` -/

theorem mem_ddStep (k : Nat) (acc : List Chars) (c x : Chars) (hx : x ∈ ddStep k acc c) :
    x = c ∨ x ∈ acc := by
  by_cases hc : c = dotdot
  · subst hc
    cases acc with
    | nil =>
      by_cases hk : k = 0
      · simp [ddStep, hk] at hx
        left
        exact hx
      · simp [ddStep, hk] at hx
    | cons top rest =>
      by_cases ht : top = dotdot
      · subst ht
        simp [ddStep] at hx
        tauto
      · simp [ddStep, ht] at hx
        right
        exact List.mem_cons_of_mem _ hx
  · simp [ddStep, hc] at hx
    tauto

theorem foldl_ddStep_mem (k : Nat) (l : List Chars) (acc : List Chars) :
    ∀ x ∈ l.foldl (ddStep k) acc, x = dotdot ∨ x ∈ acc ∨ x ∈ l := by
  induction l generalizing acc with
  | nil =>
    intro x hx
    right; left
    exact hx
  | cons c cl ih =>
    intro x hx
    rw [List.foldl_cons] at hx
    rcases ih (ddStep k acc c) x hx with h | h | h
    · left; exact h
    · rcases mem_ddStep k acc c x h with h2 | h2
      · right; right
        rw [h2]
        exact List.mem_cons_self _ _
      · right; left; exact h2
    · right; right
      exact List.mem_cons_of_mem _ h

/-- One `normpath` component step keeps the reversed stack of the shape
"a (possibly empty) run of `..` followed by a `..`-free rest". -/
theorem ddStep_good (k : Nat) (acc : List Chars) (c : Chars)
    (h : ∃ j rest, acc.reverse = List.replicate j dotdot ++ rest ∧ dotdot ∉ rest) :
    ∃ j rest, (ddStep k acc c).reverse = List.replicate j dotdot ++ rest ∧ dotdot ∉ rest := by
  obtain ⟨j, rest, hrev, hnd⟩ := h
  by_cases hc : c = dotdot
  · cases acc with
    | nil =>
      by_cases hk : k = 0
      · refine ⟨1, [], ?_, by simp⟩
        simp [ddStep, hc, hk]
      · refine ⟨0, [], ?_, by simp⟩
        simp [ddStep, hc, hk]
    | cons top restacc =>
      have hlast : (List.replicate j dotdot ++ rest).getLast? = some top := by
        rw [← hrev, List.reverse_cons]
        exact List.getLast?_concat _
      by_cases ht : top = dotdot
      · have hrest : rest = [] := by
          by_contra hne
          rw [List.getLast?_append_of_ne_nil _ hne, List.getLast?_eq_getLast rest hne] at hlast
          have heq := Option.some.inj hlast
          apply hnd
          rw [← ht, ← heq]
          exact List.getLast_mem hne
        refine ⟨j + 1, [], ?_, by simp⟩
        have hstep : ddStep k (top :: restacc) c = c :: top :: restacc := by
          simp [ddStep, hc, ht]
        rw [hstep, List.reverse_cons, hrev, hrest, hc]
        simp [← List.replicate_succ' j dotdot]
      · have hrest : rest ≠ [] := by
          intro hre
          rw [hre, List.append_nil] at hrev
          cases j with
          | zero =>
            simp at hrev
          | succ j1 =>
            have h1 : ((top :: restacc).reverse).getLast? = some dotdot := by
              rw [hrev, List.replicate_succ' j1 dotdot]
              exact List.getLast?_concat _
            rw [List.reverse_cons, List.getLast?_concat] at h1
            exact ht (Option.some.inj h1)
        refine ⟨j, rest.dropLast, ?_, fun hm => hnd (List.dropLast_subset _ hm)⟩
        have hstep : ddStep k (top :: restacc) c = restacc := by
          simp [ddStep, hc, ht]
        rw [hstep]
        have hdrop : restacc.reverse = ((top :: restacc).reverse).dropLast := by
          rw [List.reverse_cons, List.dropLast_concat]
        rw [hdrop, hrev, List.dropLast_append_of_ne_nil _ hrest]
  · refine ⟨j, rest ++ [c], ?_, ?_⟩
    · have hstep : ddStep k acc c = c :: acc := by
        simp [ddStep, hc]
      rw [hstep, List.reverse_cons, hrev, List.append_assoc]
    · intro hm
      rcases List.mem_append.1 hm with h2 | h2
      · exact hnd h2
      · simp at h2
        exact hc h2.symm

/-- The reversed stack after `normpath`'s component loop is a run of `..`
followed by a `..`-free rest. -/
theorem foldl_ddStep_good (k : Nat) (l : List Chars) :
    ∃ j rest, (l.foldl (ddStep k) []).reverse = List.replicate j dotdot ++ rest
      ∧ dotdot ∉ rest := by
  suffices hgen : ∀ acc : List Chars,
      (∃ j rest, acc.reverse = List.replicate j dotdot ++ rest ∧ dotdot ∉ rest) →
      ∃ j rest, (l.foldl (ddStep k) acc).reverse = List.replicate j dotdot ++ rest
        ∧ dotdot ∉ rest by
    exact hgen [] ⟨0, [], by simp, by simp⟩
  induction l with
  | nil => exact fun acc h => h
  | cons c cl ih =>
    intro acc h
    rw [List.foldl_cons]
    exact ih _ (ddStep_good k acc c h)

/-- A normal form that passes `safe_join`'s checks (not absolute, not `..`,
not starting with `../`) contains no `..` segment at all: in `normpath`
output the `..` segments form a prefix, and the checks exclude a nonempty
prefix. -/
theorem normpath_no_dd (f : Chars) (hne : f ≠ [])
    (habs : isAbsC (normpathC f) = false)
    (hdd : normpathC f ≠ dotdot)
    (hpre : (normpathC f).take 3 ≠ ['.', '.', '/']) :
    ∀ c ∈ splitSlash (normpathC f), c ≠ dotdot := by
  rw [normpathC_eq f hne] at habs hdd hpre ⊢
  by_cases hout : (List.replicate (initSlashes f) '/' ++
      joinSlash (((filterComps (splitSlash f)).foldl (ddStep (initSlashes f)) []).reverse)).isEmpty
  · rw [if_pos hout] at habs hdd hpre ⊢
    intro c hc
    rw [splitSlash_of_no_slash ['.'] (by simp)] at hc
    simp at hc
    rw [hc]
    simp [dotdot]
  · rw [if_neg hout] at habs hdd hpre ⊢
    have hk0 : initSlashes f = 0 := by
      by_contra hk
      obtain ⟨k1, hk1⟩ := Nat.exists_eq_succ_of_ne_zero hk
      rw [hk1, List.replicate_succ] at habs
      simp [isAbsC] at habs
    rw [hk0, List.replicate, List.nil_append] at habs hdd hpre hout ⊢
    obtain ⟨j, rest, hstack, hnd⟩ := foldl_ddStep_good 0 (filterComps (splitSlash f))
    rw [hstack] at habs hdd hpre hout ⊢
    have hmem : ∀ x ∈ List.replicate j dotdot ++ rest,
        x = dotdot ∨ x ∈ filterComps (splitSlash f) := by
      intro x hx
      rw [← hstack] at hx
      rw [List.mem_reverse] at hx
      rcases foldl_ddStep_mem 0 (filterComps (splitSlash f)) [] x hx with h | h | h
      · left; exact h
      · simp at h
      · right; exact h
    cases j with
    | succ j1 =>
      exfalso
      cases hrest2 : (List.replicate j1 dotdot ++ rest) with
      | nil =>
        apply hdd
        rw [List.replicate_succ, List.cons_append, hrest2]
        rfl
      | cons g gs =>
        apply hpre
        rw [List.replicate_succ, List.cons_append, hrest2, joinSlash_cons]
        rfl
    | zero =>
      rw [List.replicate, List.nil_append] at hstack habs hdd hpre hout ⊢
      have hrestne : rest ≠ [] := by
        intro hre
        rw [hre] at hout
        simp [joinSlash] at hout
      have hfree : ∀ g ∈ rest, '/' ∉ g := by
        intro g hg
        rcases hmem g (by rw [List.replicate, List.nil_append]; exact hg) with h | h
        · exfalso
          exact hnd (h ▸ hg)
        · exact splitSlash_no_slash f g (List.mem_of_mem_filter h)
      rw [splitSlash_joinSlash rest hrestne hfree]
      intro c hc hcd
      exact hnd (hcd ▸ hc)

/-- Whatever `safe_join` returns is a location under the base directory:
the joined pathname is a clean relative path. -/
theorem safeJoin_ok_underDir (dirS : String) (f q : Chars)
    (h : safeJoinC dirS.data f = .ok q) : underDir dirS q := by
  by_cases hf : f = []
  · subst hf
    have hq : q = pjoinC dirS.data [] := by
      unfold safeJoinC at h
      simp [isAbsC, dotdot] at h
      exact h.symm
    exact ⟨[], ⟨by simp, by simp [splitSlash, dotdot]⟩, hq⟩
  · rw [safeJoinC_of_ne_nil _ _ hf] at h
    by_cases hcond : (isAbsC (normpathC f) || (normpathC f == dotdot)
        || ((normpathC f).take 3 == ['.', '.', '/'])) = true
    · rw [if_pos hcond] at h
      cases h
    · rw [if_neg hcond] at h
      have h3 : (isAbsC (normpathC f) = false ∧ ¬normpathC f = dotdot)
          ∧ ¬(normpathC f).take 3 = ['.', '.', '/'] := by
        simpa using hcond
      refine ⟨normpathC f, ⟨?_, normpath_no_dd f hf h3.1.1 h3.1.2 h3.2⟩,
        (Except.ok.inj h).symm⟩
      intro habs
      have habs2 : isAbsC (normpathC f) = true := by
        unfold isAbsC
        rw [habs]
        rfl
      rw [habs2] at h3
      simp at h3

theorem getLast?_cons_of_ne_nil (x : Char) (l : Chars) (h : l ≠ []) :
    (x :: l).getLast? = l.getLast? := by
  have hx : x :: l = [x] ++ l := rfl
  rw [hx, List.getLast?_append_of_ne_nil _ h]

/-- `posixpath.join` is associative as long as the later components are not
absolute. -/
theorem pjoin_pjoin (a b c : Chars) (hb : b.head? ≠ some '/') (hc : c.head? ≠ some '/') :
    pjoinC (pjoinC a b) c = pjoinC a (pjoinC b c) := by
  by_cases hbe : b = []
  · subst hbe
    unfold pjoinC
    by_cases hae : a = []
    · subst hae
      simp [hc]
    · by_cases hal : a.getLast? = some '/'
      · simp [hc, hal, hae]
      · simp [hc, hal, hae]
  · have hbhead : ¬(b.head? = some '/') := hb
    by_cases hbl : b.getLast? = some '/'
    · -- b ends with a slash: join keeps b's last slash, so the last append
      -- inserts nothing
      unfold pjoinC
      by_cases hae : a = []
      · subst hae
        simp [hc, hbhead, hbl, hbe, List.getLast?_append_of_ne_nil _ hbe,
          List.head?_append_of_ne_nil _ hbe]
      · by_cases hal : a.getLast? = some '/'
        · simp [hc, hbhead, hbl, hbe, hae, hal, List.getLast?_append_of_ne_nil _ hbe,
            List.head?_append_of_ne_nil _ hbe]
        · simp [hc, hbhead, hbl, hbe, hae, hal, List.getLast?_append_of_ne_nil _ hbe,
            List.head?_append_of_ne_nil _ hbe, List.getLast?_concat,
            getLast?_cons_of_ne_nil _ _ hbe]
    · unfold pjoinC
      by_cases hae : a = []
      · subst hae
        simp [hc, hbhead, hbl, hbe, List.getLast?_append_of_ne_nil _ hbe,
          List.head?_append_of_ne_nil _ hbe]
      · by_cases hal : a.getLast? = some '/'
        · simp [hc, hbhead, hbl, hbe, hae, hal, List.getLast?_append_of_ne_nil _ hbe,
            List.head?_append_of_ne_nil _ hbe]
        · simp [hc, hbhead, hbl, hbe, hae, hal, List.getLast?_append_of_ne_nil _ hbe,
            List.head?_append_of_ne_nil _ hbe, List.getLast?_concat,
            getLast?_cons_of_ne_nil _ _ hbe]

/-- Joining a slash-free, non-`..` component onto a clean relative path
stays clean. -/
theorem cleanRel_pjoin (rel cand : Chars) (hrel : cleanRel rel)
    (hns : '/' ∉ cand) (hnd : cand ≠ dotdot) : cleanRel (pjoinC rel cand) := by
  obtain ⟨hhead, hsegs⟩ := hrel
  have hcandhead : cand.head? ≠ some '/' := fun h => hns (List.mem_of_mem_head? (by simp [h]))
  have hcandsplit : splitSlash cand = [cand] := splitSlash_of_no_slash cand hns
  unfold pjoinC
  rw [if_neg hcandhead]
  by_cases hre : (rel.isEmpty || (rel.getLast? == some '/')) = true
  · rw [if_pos hre]
    by_cases hrele : rel = []
    · subst hrele
      refine ⟨hcandhead, ?_⟩
      rw [List.nil_append, hcandsplit]
      simp [hnd]
    · have hlast : rel.getLast? = some '/' := by
        rcases (by simpa using hre : rel = [] ∨ rel.getLast? = some '/') with h | h
        · exact absurd h hrele
        · exact h
      have hrel0 : rel.dropLast ++ ['/'] = rel := by
        have hg := List.getLast?_eq_getLast rel hrele
        rw [hlast] at hg
        have hgl : '/' = rel.getLast hrele := Option.some.inj hg
        rw [hgl]
        exact List.dropLast_append_getLast hrele
      constructor
      · rw [List.head?_append_of_ne_nil _ hrele]
        exact hhead
      · intro c hcm
        rw [← hrel0, List.append_assoc,
          show (['/'] : Chars) ++ cand = '/' :: cand from rfl,
          splitSlash_append_slash] at hcm
        rcases List.mem_append.1 hcm with h | h
        · apply hsegs
          rw [← hrel0, show (['/'] : Chars) = '/' :: ([] : Chars) from rfl,
            splitSlash_append_slash]
          exact List.mem_append_left _ h
        · rw [hcandsplit] at h
          simp at h
          rw [h]
          exact hnd
  · rw [if_neg hre]
    have hrele : rel ≠ [] := by
      intro hr
      rw [hr] at hre
      simp at hre
    constructor
    · rw [List.head?_append_of_ne_nil _ hrele]
      exact hhead
    · intro c hcm
      rw [splitSlash_append_slash] at hcm
      rcases List.mem_append.1 hcm with h | h
      · exact hsegs c h
      · rw [hcandsplit] at h
        simp at h
        rw [h]
        exact hnd

/-- The subtree of reachable locations is closed under joining a slash-free,
non-`..` candidate filename. -/
theorem underDir_extend (dirS : String) (q cand : Chars) (hq : underDir dirS q)
    (hns : '/' ∉ cand) (hnd2 : cand ≠ dotdot) : underDir dirS (pjoinC q cand) := by
  obtain ⟨rel, hclean, rfl⟩ := hq
  have hcandhead : cand.head? ≠ some '/' := fun h => hns (List.mem_of_mem_head? (by simp [h]))
  exact ⟨pjoinC rel cand, cleanRel_pjoin rel cand hclean hns hnd2,
    pjoin_pjoin dirS.data rel cand hclean.1 hcandhead⟩

theorem findCand_congr (fs1 fs2 : FS) (q : Chars) (cand : String)
    (h : fsGetC fs1 (pjoinC q cand.data) = fsGetC fs2 (pjoinC q cand.data)) :
    findCand fs1 q cand = findCand fs2 q cand := by
  unfold findCand
  rw [h]

theorem findSome_findCand_congr (fs1 fs2 : FS) (q : Chars) (cands : List String)
    (h : ∀ cand ∈ cands, findCand fs1 q cand = findCand fs2 q cand) :
    cands.findSome? (findCand fs1 q) = cands.findSome? (findCand fs2 q) := by
  induction cands with
  | nil => rfl
  | cons c cl ih =>
    rw [List.findSome?_cons, List.findSome?_cons, h c (List.mem_cons_self _ _)]
    cases findCand fs2 q c with
    | some f => rfl
    | none => exact ih (fun x hx => h x (List.mem_cons_of_mem _ hx))

theorem findCand_some (fs : FS) (q : Chars) (cand : String) (g : Chars)
    (h : findCand fs q cand = some g) : g = pjoinC q cand.data := by
  unfold findCand at h
  cases hval : fsGetC fs (pjoinC q cand.data) with
  | none =>
    rw [hval] at h
    simp at h
  | some node =>
    rw [hval] at h
    cases node with
    | file d m =>
      simp at h
      exact h.symm
    | dir m => simp at h
    | denied e m => simp at h

theorem findSome_findCand_shape (fs : FS) (q : Chars) (cands : List String) (f : Chars)
    (h : cands.findSome? (findCand fs q) = some f) :
    ∃ cand ∈ cands, f = pjoinC q cand.data := by
  induction cands with
  | nil => simp at h
  | cons c cl ih =>
    rw [List.findSome?_cons] at h
    cases hc : findCand fs q c with
    | some g =>
      simp only [hc] at h
      refine ⟨c, List.mem_cons_self _ _, ?_⟩
      rw [← Option.some.inj h]
      exact findCand_some fs q c g hc
    | none =>
      simp only [hc] at h
      obtain ⟨cand, hm, hf⟩ := ih h
      exact ⟨cand, List.mem_cons_of_mem _ hm, hf⟩

theorem DEFAULT_FILENAMES_clean (cand : String) (h : cand ∈ DEFAULT_FILENAMES) :
    '/' ∉ cand.data ∧ cand.data ≠ dotdot := by
  simp only [DEFAULT_FILENAMES, List.mem_cons, List.not_mem_nil, or_false] at h
  rcases h with rfl | rfl | rfl | rfl | rfl <;> exact ⟨by decide, by decide⟩

theorem find_file_congr (fs1 fs2 : FS) (dirS : String) (q : Chars) (hq : underDir dirS q)
    (H : ∀ p, underDir dirS p → fsGetC fs1 p = fsGetC fs2 p) :
    find_file fs1 q = find_file fs2 q := by
  unfold find_file
  apply findSome_findCand_congr
  intro cand hcand
  obtain ⟨hns, hnd⟩ := DEFAULT_FILENAMES_clean cand hcand
  exact findCand_congr _ _ _ _ (H _ (underDir_extend dirS q cand.data hq hns hnd))

theorem find_file_underDir (fs : FS) (dirS : String) (q f : Chars) (hq : underDir dirS q)
    (h : find_file fs q = some f) : underDir dirS f := by
  unfold find_file at h
  obtain ⟨cand, hm, rfl⟩ := findSome_findCand_shape fs q DEFAULT_FILENAMES f h
  obtain ⟨hns, hnd⟩ := DEFAULT_FILENAMES_clean cand hm
  exact underDir_extend dirS q cand.data hq hns hnd

theorem read_text_file_congr (fs1 fs2 : FS) (p : Chars) (h : fsGetC fs1 p = fsGetC fs2 p) :
    read_text_file fs1 p = read_text_file fs2 p := by
  unfold read_text_file openFileC
  rw [h]

theorem read_binary_file_congr (fs1 fs2 : FS) (p : Chars) (h : fsGetC fs1 p = fsGetC fs2 p) :
    read_binary_file fs1 p = read_binary_file fs2 p := by
  unfold read_binary_file openFileC
  rw [h]

/-- C1: `read` on a non-absent subpath is confined to the base directory's
subtree. Stated as noninterference: two file systems that agree on every
location reachable from the base directory without upward traversal
(`underDir`) give identical `read` results for every subpath — so content
of a file outside the subtree can never be returned; a traversal attempt is
rejected by `safe_join` with an error before any file access. -/
theorem C1_read_confined (r : DirectoryReader) (s : String) (fs1 fs2 : FS)
    (H : ∀ p : Chars, underDir r.directory p → fsGetC fs1 p = fsGetC fs2 p) :
    DirectoryReader.read fs1 r (some s) = DirectoryReader.read fs2 r (some s) := by
  cases hsj : safeJoinC r.directory.data (filenameForC s.data) with
  | error e => simp only [DirectoryReader.read, hsj]
  | ok q =>
    have hq : underDir r.directory q := safeJoin_ok_underDir r.directory _ q hsj
    have hisdir : isdirC fs1 q = isdirC fs2 q := by
      unfold isdirC
      rw [H q hq]
    simp only [DirectoryReader.read, hsj]
    rw [hisdir]
    by_cases hd : isdirC fs2 q
    · rw [hd]
      simp only [if_true]
      rw [find_file_congr fs1 fs2 r.directory q hq H]
      cases hf : find_file fs2 q with
      | none => rfl
      | some f =>
        have hfu : underDir r.directory f := find_file_underDir fs2 r.directory q f hq hf
        simp only [read_binary_file_congr fs1 fs2 f (H f hfu),
          read_text_file_congr fs1 fs2 f (H f hfu)]
    · have hdf : isdirC fs2 q = false := by simpa using hd
      rw [hdf]
      simp only [Bool.false_eq_true, if_false,
        read_binary_file_congr fs1 fs2 q (H q hq),
        read_text_file_congr fs1 fs2 q (H q hq)]

theorem foldl_ddStep_no_dd (k : Nat) (l : List Chars) (acc : List Chars)
    (h : ∀ c ∈ l, c ≠ dotdot) : l.foldl (ddStep k) acc = l.reverse ++ acc := by
  induction l generalizing acc with
  | nil => simp
  | cons c cl ih =>
    rw [List.foldl_cons]
    have hstep : ddStep k acc c = c :: acc := by
      simp [ddStep, h c (List.mem_cons_self _ _)]
    rw [hstep, ih _ (fun x hx => h x (List.mem_cons_of_mem _ hx))]
    simp

/-- Every location under the base directory `proj` has a normal form that
starts with the character `p` — in particular it is never a path like
`etc/passwd`. -/
theorem underDir_proj_head (p : Chars) (hp : underDir "proj" p) :
    (normpathC p).head? = some 'p' := by
  obtain ⟨rel, ⟨hhead, hsegs⟩, rfl⟩ := hp
  have hp_eq : pjoinC ("proj" : String).data rel = 'p' :: 'r' :: 'o' :: 'j' :: '/' :: rel := by
    unfold pjoinC
    rw [if_neg hhead, if_neg (by decide)]
    rfl
  rw [hp_eq]
  rw [normpathC_eq _ (by simp)]
  have hsplit : splitSlash ('p' :: 'r' :: 'o' :: 'j' :: '/' :: rel)
      = ('p' :: 'r' :: 'o' :: 'j' :: []) :: splitSlash rel := by
    show splitSlash (('p' :: 'r' :: 'o' :: 'j' :: []) ++ '/' :: rel) = _
    rw [splitSlash_append_slash, splitSlash_of_no_slash _ (by decide)]
    rfl
  rw [hsplit]
  have hfilter : filterComps (('p' :: 'r' :: 'o' :: 'j' :: []) :: splitSlash rel)
      = ('p' :: 'r' :: 'o' :: 'j' :: []) :: filterComps (splitSlash rel) := by
    simp [filterComps]
  rw [hfilter]
  have hnodd : ∀ c ∈ ('p' :: 'r' :: 'o' :: 'j' :: []) :: filterComps (splitSlash rel),
      c ≠ dotdot := by
    intro c hc
    rcases List.mem_cons.1 hc with rfl | hcm
    · decide
    · exact hsegs c (List.mem_of_mem_filter hcm)
  rw [foldl_ddStep_no_dd _ _ _ hnodd, List.append_nil, List.reverse_reverse]
  have hinit : initSlashes ('p' :: 'r' :: 'o' :: 'j' :: '/' :: rel) = 0 := by
    simp [initSlashes, leadSlashes]
  rw [hinit]
  cases hrest : filterComps (splitSlash rel) with
  | nil => simp [joinSlash]
  | cons g gs =>
    rw [joinSlash_cons]
    simp

/-- The end-to-end file system extended with a file outside the `proj`
subtree. -/
def fsOutside : FS := fsProj ++ [("etc/passwd", .file [115, 101, 99] 0)]

/-- Helper for the C1 witness: `fsProj` and `fsOutside` agree on every
location under the base directory `proj`. -/
theorem fsProj_outside_agree (p : Chars) (hp : underDir "proj" p) :
    fsGetC fsProj p = fsGetC fsOutside p := by
  have hhead := underDir_proj_head p hp
  have hne : ¬(("etc/passwd" : String).data = normpathC p) := by
    intro he
    rw [← he] at hhead
    exact Option.noConfusion hhead (fun h => by cases h)
  show _ = List.findSome? _ (fsProj ++ [("etc/passwd", FNode.file [115, 101, 99] 0)])
  rw [List.findSome?_append]
  cases hfind : fsGetC fsProj p with
  | some v =>
    unfold fsGetC at hfind
    rw [hfind]
    rfl
  | none =>
    unfold fsGetC at hfind
    rw [hfind]
    simp [List.findSome?_cons, hne]

/-- C1, witness: adding `etc/passwd` outside the base directory's subtree
changes no `read` result, neither for a traversal subpath (rejected with an
error) nor for an ordinary one. -/
theorem C1_read_confined_witness :
    DirectoryReader.read fsProj rdrProj (some "../etc/passwd")
      = DirectoryReader.read fsOutside rdrProj (some "../etc/passwd") ∧
    DirectoryReader.read fsProj rdrProj (some "images/README.png")
      = DirectoryReader.read fsOutside rdrProj (some "images/README.png") :=
  ⟨C1_read_confined rdrProj "../etc/passwd" fsProj fsOutside
      (fun p hp => fsProj_outside_agree p hp),
   C1_read_confined rdrProj "images/README.png" fsProj fsOutside
      (fun p hp => fsProj_outside_agree p hp)⟩
